import Mathlib

/- Verification of the core logic of scripts/generate_lineage_files.py:
   the label parser `parse_label`, the hierarchy builder inside
   `load_lineage_files`, and the deterministic output ordering used by
   `generate_hierarchy_file`.  Python strings are embedded as lists of
   characters; the Python dict (which preserves insertion order) is embedded
   as an association list. -/

/-- A clade label.  Python strings are sequences of Unicode characters,
embedded as lists of `Char`. -/
abbrev Label := List Char

/-- Turn a Lean string literal into a `Label`. -/
def lbl (s : String) : Label := s.data

/-- The Python expression `s.split(d)[0]`: the characters of `s` before the
first occurrence of the separator `d`, or all of `s` when `d` does not
occur. -/
def splitHead (d : Char) (s : Label) : Label := s.takeWhile (· ≠ d)

/-- The function `parse_label` of scripts/generate_lineage_files.py.
`genotype = clade.split("_")[0]`; when `len(clade.split("_")) > 1` (that is,
when an underscore occurs in `clade`), `major_lineage = clade.split(".")[0]`,
and when additionally `len(clade.split(".")) > 1` (a dot occurs),
`minor_lineage = clade`.  Returns `(genotype, major_lineage, minor_lineage)`,
where an unset component is the empty string. -/
def parse_label (clade : Label) : Label × Label × Label :=
  let genotype := splitHead '_' clade
  if '_' ∈ clade then
    let major_lineage := splitHead '.' clade
    if '.' ∈ clade then (genotype, major_lineage, clade)
    else (genotype, major_lineage, [])
  else (genotype, [], [])

/-- A hierarchy node: the Python dict value `{"aliases": [...], "parents":
[...]}`. -/
structure Node where
  aliases : List Label
  parents : List Label
deriving DecidableEq

/-- The hierarchy `silo_lineages`: a Python dict preserving insertion order,
embedded as an association list from node name to node. -/
abbrev Hierarchy := List (Label × Node)

/-- Dict lookup: `h[q]` as an `Option`. -/
def hlookup : Hierarchy → Label → Option Node
  | [], _ => none
  | (k, v) :: t, q => if k = q then some v else hlookup t q

/-- The dict's key list, in insertion order. -/
def hkeys (h : Hierarchy) : List Label := h.map Prod.fst

/-- The statement pattern `if name not in silo_lineages: silo_lineages[name]
= v`: insert at the end of the dict iff the key is absent. -/
def insertIfAbsent (h : Hierarchy) (k : Label) (v : Node) : Hierarchy :=
  if (hlookup h k).isSome then h else h ++ [(k, v)]

/-- The body of the `for clade in unique_clades` loop in
`load_lineage_files`: conditionally insert the genotype node, then (when an
underscore occurs) the major-lineage node with the genotype as parent, then
(when additionally a dot occurs) the minor-lineage node with the major
lineage as parent. -/
def processClade (h : Hierarchy) (clade : Label) : Hierarchy :=
  let genotype := splitHead '_' clade
  let h1 := insertIfAbsent h genotype ⟨[], []⟩
  if '_' ∈ clade then
    let major_lineage := splitHead '.' clade
    let h2 := insertIfAbsent h1 major_lineage ⟨[], [genotype]⟩
    if '.' ∈ clade then
      insertIfAbsent h2 clade ⟨[], [major_lineage]⟩
    else h2
  else h1

/-- The call `df["clade"].dropna().unique()` of pandas keeps the distinct
values in order of first occurrence; `seen` accumulates the values already
kept. -/
def uniqueFirstAux (seen : List Label) : List Label → List Label
  | [] => []
  | c :: t =>
    if c ∈ seen then uniqueFirstAux seen t
    else c :: uniqueFirstAux (c :: seen) t

/-- Distinct values of a list in order of first occurrence, as
`pandas.unique` produces them. -/
def uniqueFirst (l : List Label) : List Label := uniqueFirstAux [] l

/-- The initial dict of `load_lineage_files` with the two sentinel
entries. -/
def initHierarchy : Hierarchy :=
  [(lbl "unassigned", ⟨[], []⟩), (lbl "None", ⟨[], []⟩)]

/-- The pure core of `load_lineage_files`: deduplicate the clade column
(first-occurrence order, as `pandas.unique` does) and run the construction
loop over the distinct clades. -/
def load_lineage_files (clades : List Label) : Hierarchy :=
  (uniqueFirst clades).foldl processClade initHierarchy

/-- Python string comparison `s < t`: lexicographic by code point. -/
def lexLt : Label → Label → Bool
  | _, [] => false
  | [], _ :: _ => true
  | x :: xs, y :: ys =>
    if x < y then true else if y < x then false else lexLt xs ys

/-- Python tuple comparison on the 3-tuples returned by `parse_label`: the
first position where the components differ decides, by string
comparison. -/
def tupLt (x y : Label × Label × Label) : Bool :=
  if x.1 = y.1 then
    if x.2.1 = y.2.1 then lexLt x.2.2 y.2.2
    else lexLt x.2.1 y.2.1
  else lexLt x.1 y.1

/-- The order by which `sorted(lineages.keys(), key=parse_label)` arranges
node names: ascending comparison of the key tuples. -/
def keyLe (a b : Label) : Prop := tupLt (parse_label b) (parse_label a) = false

instance : DecidableRel keyLe := fun a b => by unfold keyLe; infer_instance

/-- The result of `sorted(l, key=parse_label)` on a duplicate-free list:
since distinct names have distinct key tuples (`parse_label` is injective),
every sort with this comparison returns the unique sorted arrangement, so
insertion sort models Python's stable sort exactly on the key lists produced
by the builder. -/
def sortedKeyList (l : List Label) : List Label := List.insertionSort keyLe l

/-- The node-name order in which `generate_hierarchy_file` writes the
hierarchy: `sorted(lineages.keys(), key=parse_label)`. -/
def sortedNames (h : Hierarchy) : List Label := sortedKeyList (hkeys h)

theorem hkeys_nil : hkeys [] = [] := rfl

theorem hkeys_cons (k : Label) (v : Node) (t : Hierarchy) :
    hkeys ((k, v) :: t) = k :: hkeys t := rfl

theorem hkeys_append (h h' : Hierarchy) :
    hkeys (h ++ h') = hkeys h ++ hkeys h' := by
  simp [hkeys]

theorem hlookup_isSome_iff {h : Hierarchy} {q : Label} :
    (hlookup h q).isSome ↔ q ∈ hkeys h := by
  induction h with
  | nil => simp [hlookup, hkeys]
  | cons p t ih =>
    obtain ⟨k, v⟩ := p
    by_cases hk : k = q
    · subst hk; simp [hlookup, hkeys_cons]
    · rw [hkeys_cons]
      simp only [hlookup, if_neg hk, List.mem_cons, ih]
      constructor
      · exact Or.inr
      · rintro (rfl | hq)
        · exact absurd rfl hk
        · exact hq

theorem hlookup_mem_keys {h : Hierarchy} {k : Label} {v : Node}
    (hl : hlookup h k = some v) : k ∈ hkeys h :=
  hlookup_isSome_iff.mp (by rw [hl]; rfl)

theorem hlookup_eq_none_of_not_mem {h : Hierarchy} {k : Label}
    (hk : k ∉ hkeys h) : hlookup h k = none := by
  cases he : hlookup h k with
  | none => rfl
  | some v => exact absurd (hlookup_mem_keys he) hk

theorem hlookup_append_left {h h' : Hierarchy} {k : Label} {v : Node}
    (hl : hlookup h k = some v) : hlookup (h ++ h') k = some v := by
  induction h with
  | nil => simp [hlookup] at hl
  | cons p t ih =>
    obtain ⟨k', v'⟩ := p
    by_cases hk : k' = k
    · subst hk
      simp only [hlookup, if_pos rfl] at hl ⊢
      exact hl
    · simp only [hlookup, if_neg hk] at hl ⊢
      exact ih hl

theorem hlookup_append_right {h h' : Hierarchy} {k : Label}
    (hk : k ∉ hkeys h) : hlookup (h ++ h') k = hlookup h' k := by
  induction h with
  | nil => rfl
  | cons p t ih =>
    obtain ⟨k', v'⟩ := p
    rw [hkeys_cons, List.mem_cons] at hk
    push_neg at hk
    have hne : ¬ (k' = k) := fun he => hk.1 he.symm
    rw [List.cons_append]
    show (if k' = k then some v' else hlookup (t ++ h') k) = hlookup h' k
    rw [if_neg hne, ih hk.2]

theorem insertIfAbsent_lookup_preserve {h : Hierarchy} {k : Label} {v : Node}
    (k' : Label) (v' : Node) (hl : hlookup h k = some v) :
    hlookup (insertIfAbsent h k' v') k = some v := by
  unfold insertIfAbsent
  split
  · exact hl
  · exact hlookup_append_left hl

theorem mem_hkeys_insertIfAbsent_iff {h : Hierarchy} {k q : Label} {v : Node} :
    q ∈ hkeys (insertIfAbsent h k v) ↔ q ∈ hkeys h ∨ q = k := by
  unfold insertIfAbsent
  split
  · rename_i hs
    constructor
    · exact Or.inl
    · rintro (hq | rfl)
      · exact hq
      · exact hlookup_isSome_iff.mp hs
  · rw [hkeys_append, List.mem_append, hkeys_cons, hkeys_nil, List.mem_singleton]

theorem insertIfAbsent_keys_mono {h : Hierarchy} {q : Label} (k : Label)
    (v : Node) (hq : q ∈ hkeys h) : q ∈ hkeys (insertIfAbsent h k v) :=
  mem_hkeys_insertIfAbsent_iff.mpr (Or.inl hq)

theorem insertIfAbsent_self_mem (h : Hierarchy) (k : Label) (v : Node) :
    k ∈ hkeys (insertIfAbsent h k v) :=
  mem_hkeys_insertIfAbsent_iff.mpr (Or.inr rfl)

theorem insertIfAbsent_noop {h : Hierarchy} {k : Label} (v : Node)
    (hk : k ∈ hkeys h) : insertIfAbsent h k v = h := by
  unfold insertIfAbsent
  rw [if_pos (hlookup_isSome_iff.mpr hk)]

theorem hlookup_insertIfAbsent_cases {h : Hierarchy} {k q : Label}
    {v w : Node} (hl : hlookup (insertIfAbsent h k v) q = some w) :
    hlookup h q = some w ∨ (q = k ∧ w = v ∧ q ∉ hkeys h) := by
  unfold insertIfAbsent at hl
  split at hl
  · exact Or.inl hl
  · rename_i hs
    by_cases hq : q ∈ hkeys h
    · obtain ⟨u, hu⟩ := Option.isSome_iff_exists.mp (hlookup_isSome_iff.mpr hq)
      rw [hlookup_append_left hu] at hl
      injection hl with hl
      exact Or.inl (hl ▸ hu)
    · rw [hlookup_append_right hq] at hl
      by_cases he : k = q
      · subst he
        have hv : hlookup [(k, v)] k = some v := if_pos rfl
        rw [hv] at hl
        injection hl with hl
        exact Or.inr ⟨rfl, hl.symm, hq⟩
      · have hn : hlookup [(k, v)] q = none := by
          simp only [hlookup, if_neg he]
        rw [hn] at hl
        cases hl

theorem nodup_hkeys_insertIfAbsent {h : Hierarchy} {k : Label} (v : Node)
    (hn : (hkeys h).Nodup) : (hkeys (insertIfAbsent h k v)).Nodup := by
  unfold insertIfAbsent
  split
  · exact hn
  · rename_i hs
    rw [hkeys_append, hkeys_cons, hkeys_nil]
    refine List.Nodup.append hn (List.nodup_singleton k) ?_
    intro x hx hx'
    rw [List.mem_singleton] at hx'
    subst hx'
    exact hs (hlookup_isSome_iff.mpr hx)

/-- The names that processing one clade makes present: the genotype, and
depending on the delimiters also the major and minor lineage names. -/
def cladeNames (c : Label) : List Label :=
  splitHead '_' c ::
    (if '_' ∈ c then
      splitHead '.' c :: (if '.' ∈ c then [c] else [])
    else [])

theorem processClade_def (h : Hierarchy) (c : Label) :
    processClade h c =
      if '_' ∈ c then
        if '.' ∈ c then
          insertIfAbsent
            (insertIfAbsent (insertIfAbsent h (splitHead '_' c) ⟨[], []⟩)
              (splitHead '.' c) ⟨[], [splitHead '_' c]⟩) c
            ⟨[], [splitHead '.' c]⟩
        else
          insertIfAbsent (insertIfAbsent h (splitHead '_' c) ⟨[], []⟩)
            (splitHead '.' c) ⟨[], [splitHead '_' c]⟩
      else insertIfAbsent h (splitHead '_' c) ⟨[], []⟩ := by
  unfold processClade
  by_cases h1 : '_' ∈ c <;> by_cases h2 : '.' ∈ c <;> simp [h1, h2]

theorem processClade_lookup_preserve {h : Hierarchy} {k : Label} {v : Node}
    (c : Label) (hl : hlookup h k = some v) :
    hlookup (processClade h c) k = some v := by
  rw [processClade_def]
  split
  · split
    · exact insertIfAbsent_lookup_preserve _ _
        (insertIfAbsent_lookup_preserve _ _
          (insertIfAbsent_lookup_preserve _ _ hl))
    · exact insertIfAbsent_lookup_preserve _ _
        (insertIfAbsent_lookup_preserve _ _ hl)
  · exact insertIfAbsent_lookup_preserve _ _ hl

theorem processClade_keys_mono {h : Hierarchy} {q : Label} (c : Label)
    (hq : q ∈ hkeys h) : q ∈ hkeys (processClade h c) := by
  rw [processClade_def]
  split
  · split
    · exact insertIfAbsent_keys_mono _ _
        (insertIfAbsent_keys_mono _ _ (insertIfAbsent_keys_mono _ _ hq))
    · exact insertIfAbsent_keys_mono _ _ (insertIfAbsent_keys_mono _ _ hq)
  · exact insertIfAbsent_keys_mono _ _ hq

theorem mem_hkeys_processClade_iff {h : Hierarchy} {c q : Label} :
    q ∈ hkeys (processClade h c) ↔ q ∈ hkeys h ∨ q ∈ cladeNames c := by
  rw [processClade_def]
  unfold cladeNames
  by_cases h1 : '_' ∈ c <;> by_cases h2 : '.' ∈ c <;>
    simp [h1, h2, mem_hkeys_insertIfAbsent_iff] <;> tauto

theorem nodup_hkeys_processClade {h : Hierarchy} (c : Label)
    (hn : (hkeys h).Nodup) : (hkeys (processClade h c)).Nodup := by
  rw [processClade_def]
  split
  · split
    · exact nodup_hkeys_insertIfAbsent _
        (nodup_hkeys_insertIfAbsent _ (nodup_hkeys_insertIfAbsent _ hn))
    · exact nodup_hkeys_insertIfAbsent _ (nodup_hkeys_insertIfAbsent _ hn)
  · exact nodup_hkeys_insertIfAbsent _ hn

theorem hlookup_processClade_cases {h : Hierarchy} {c q : Label} {w : Node}
    (hl : hlookup (processClade h c) q = some w) :
    hlookup h q = some w ∨
      (q = splitHead '_' c ∧ w = ⟨[], []⟩) ∨
      ('_' ∈ c ∧ q = splitHead '.' c ∧ w = ⟨[], [splitHead '_' c]⟩) ∨
      ('_' ∈ c ∧ '.' ∈ c ∧ q = c ∧ w = ⟨[], [splitHead '.' c]⟩) := by
  rw [processClade_def] at hl
  by_cases h1 : '_' ∈ c
  · rw [if_pos h1] at hl
    by_cases h2 : '.' ∈ c
    · rw [if_pos h2] at hl
      rcases hlookup_insertIfAbsent_cases hl with hl2 | ⟨rfl, rfl, _⟩
      · rcases hlookup_insertIfAbsent_cases hl2 with hl3 | ⟨rfl, rfl, _⟩
        · rcases hlookup_insertIfAbsent_cases hl3 with hl4 | ⟨rfl, rfl, _⟩
          · exact Or.inl hl4
          · exact Or.inr (Or.inl ⟨rfl, rfl⟩)
        · exact Or.inr (Or.inr (Or.inl ⟨h1, rfl, rfl⟩))
      · exact Or.inr (Or.inr (Or.inr ⟨h1, h2, rfl, rfl⟩))
    · rw [if_neg h2] at hl
      rcases hlookup_insertIfAbsent_cases hl with hl2 | ⟨rfl, rfl, _⟩
      · rcases hlookup_insertIfAbsent_cases hl2 with hl3 | ⟨rfl, rfl, _⟩
        · exact Or.inl hl3
        · exact Or.inr (Or.inl ⟨rfl, rfl⟩)
      · exact Or.inr (Or.inr (Or.inl ⟨h1, rfl, rfl⟩))
  · rw [if_neg h1] at hl
    rcases hlookup_insertIfAbsent_cases hl with hl2 | ⟨rfl, rfl, _⟩
    · exact Or.inl hl2
    · exact Or.inr (Or.inl ⟨rfl, rfl⟩)

/-- All names that a clade inserts are already keys. -/
def presentNames (c : Label) (h : Hierarchy) : Prop :=
  ∀ n ∈ cladeNames c, n ∈ hkeys h

theorem processClade_self_present (h : Hierarchy) (c : Label) :
    presentNames c (processClade h c) :=
  fun _ hn => mem_hkeys_processClade_iff.mpr (Or.inr hn)

theorem presentNames_mono {c : Label} {h : Hierarchy} (c' : Label)
    (hp : presentNames c h) : presentNames c (processClade h c') :=
  fun n hn => processClade_keys_mono c' (hp n hn)

theorem processClade_noop {h : Hierarchy} {c : Label}
    (hp : presentNames c h) : processClade h c = h := by
  rw [processClade_def]
  by_cases h1 : '_' ∈ c
  · by_cases h2 : '.' ∈ c
    · have hg : splitHead '_' c ∈ hkeys h := hp _ (by simp [cladeNames])
      have hm : splitHead '.' c ∈ hkeys h :=
        hp _ (by simp [cladeNames, h1])
      have hc : c ∈ hkeys h := hp _ (by simp [cladeNames, h1, h2])
      rw [if_pos h1, if_pos h2, insertIfAbsent_noop _ hg,
        insertIfAbsent_noop _ hm, insertIfAbsent_noop _ hc]
    · have hg : splitHead '_' c ∈ hkeys h := hp _ (by simp [cladeNames])
      have hm : splitHead '.' c ∈ hkeys h :=
        hp _ (by simp [cladeNames, h1])
      rw [if_pos h1, if_neg h2, insertIfAbsent_noop _ hg,
        insertIfAbsent_noop _ hm]
  · have hg : splitHead '_' c ∈ hkeys h := hp _ (by simp [cladeNames])
    rw [if_neg h1, insertIfAbsent_noop _ hg]

theorem foldl_lookup_preserve {k : Label} {v : Node} (l : List Label) :
    ∀ h : Hierarchy, hlookup h k = some v →
      hlookup (l.foldl processClade h) k = some v := by
  induction l with
  | nil => exact fun _ hl => hl
  | cons c t ih => exact fun h hl => ih _ (processClade_lookup_preserve c hl)

theorem foldl_keys_mono {q : Label} (l : List Label) :
    ∀ h : Hierarchy, q ∈ hkeys h → q ∈ hkeys (l.foldl processClade h) := by
  induction l with
  | nil => exact fun _ hq => hq
  | cons c t ih => exact fun h hq => ih _ (processClade_keys_mono c hq)

theorem mem_hkeys_foldl_iff {q : Label} (l : List Label) :
    ∀ h : Hierarchy,
      q ∈ hkeys (l.foldl processClade h) ↔
        q ∈ hkeys h ∨ ∃ c ∈ l, q ∈ cladeNames c := by
  induction l with
  | nil => simp
  | cons c t ih =>
    intro h
    rw [List.foldl_cons, ih, mem_hkeys_processClade_iff,
      List.exists_mem_cons_iff]
    tauto

theorem nodup_hkeys_foldl (l : List Label) :
    ∀ h : Hierarchy, (hkeys h).Nodup →
      (hkeys (l.foldl processClade h)).Nodup := by
  induction l with
  | nil => exact fun _ hn => hn
  | cons c t ih => exact fun h hn => ih _ (nodup_hkeys_processClade c hn)

theorem foldl_uniqueFirstAux (l : List Label) :
    ∀ (seen : List Label) (h : Hierarchy), (∀ c ∈ seen, presentNames c h) →
      (uniqueFirstAux seen l).foldl processClade h = l.foldl processClade h := by
  induction l with
  | nil => intro seen h _; rfl
  | cons c t ih =>
    intro seen h hs
    by_cases hc : c ∈ seen
    · simp only [uniqueFirstAux, if_pos hc, List.foldl_cons]
      rw [processClade_noop (hs c hc)]
      exact ih seen h hs
    · simp only [uniqueFirstAux, if_neg hc, List.foldl_cons]
      refine ih (c :: seen) (processClade h c) ?_
      intro d hd
      rcases List.mem_cons.mp hd with rfl | hd'
      · exact processClade_self_present h d
      · exact presentNames_mono c (hs d hd')

/-- Deduplicating the clade column does not change the built hierarchy:
re-processing a clade whose names are all present is a no-op, so
`load_lineage_files` equals the plain fold over the raw clade list. -/
theorem load_lineage_files_eq_foldl (l : List Label) :
    load_lineage_files l = l.foldl processClade initHierarchy := by
  unfold load_lineage_files uniqueFirst
  exact foldl_uniqueFirstAux l [] initHierarchy (by intro c hc; cases hc)

theorem splitHead_eq_self {d : Char} {s : Label} (hd : d ∉ s) :
    splitHead d s = s := by
  unfold splitHead
  rw [List.takeWhile_eq_self_iff]
  intro x hx
  simp only [ne_eq, decide_eq_true_eq]
  exact fun he => hd (he ▸ hx)

theorem not_mem_splitHead (d : Char) (s : Label) : d ∉ splitHead d s := by
  intro hd
  have := List.mem_takeWhile_imp hd
  simp at this

theorem splitHead_append {d : Char} {s : Label} (t : Label) (hd : d ∈ s) :
    splitHead d (s ++ t) = splitHead d s := by
  induction s with
  | nil => cases hd
  | cons x xs ih =>
    unfold splitHead at ih ⊢
    rw [List.cons_append, List.takeWhile_cons, List.takeWhile_cons]
    by_cases hx : x = d
    · subst hx
      simp
    · have hd' : d ∈ xs := by
        rcases List.mem_cons.mp hd with he | hd2
        · exact absurd he.symm hx
        · exact hd2
      rw [ih hd']

theorem splitHead_prefix (d : Char) (s : Label) :
    ∃ t, splitHead d s ++ t = s := by
  unfold splitHead
  exact ⟨_, List.takeWhile_append_dropWhile _ _⟩

theorem parse_label_no_underscore {s : Label} (h1 : '_' ∉ s) :
    parse_label s = (s, [], []) := by
  simp [parse_label, h1, splitHead_eq_self h1]

theorem parse_label_underscore_no_dot {s : Label} (h1 : '_' ∈ s)
    (h2 : '.' ∉ s) : parse_label s = (splitHead '_' s, s, []) := by
  simp [parse_label, h1, h2, splitHead_eq_self h2]

theorem parse_label_underscore_dot {s : Label} (h1 : '_' ∈ s)
    (h2 : '.' ∈ s) :
    parse_label s = (splitHead '_' s, splitHead '.' s, s) := by
  simp [parse_label, h1, h2]

/-- Recovery function witnessing that `parse_label` loses no information:
the original label can be read back off the tuple (the minor component when
set, else the major component when set, else the genotype). -/
def recoverLabel (x : Label × Label × Label) : Label :=
  if x.2.2 ≠ [] then x.2.2 else if x.2.1 ≠ [] then x.2.1 else x.1

theorem recoverLabel_parse (s : Label) : recoverLabel (parse_label s) = s := by
  by_cases h1 : '_' ∈ s
  · have hne : s ≠ [] := by rintro rfl; cases h1
    by_cases h2 : '.' ∈ s
    · rw [parse_label_underscore_dot h1 h2]
      simp [recoverLabel, hne]
    · rw [parse_label_underscore_no_dot h1 h2]
      simp [recoverLabel, hne]
  · rw [parse_label_no_underscore h1]
    simp [recoverLabel]

theorem parse_label_inj {s t : Label} (h : parse_label s = parse_label t) :
    s = t := by
  have hs := recoverLabel_parse s
  rw [h, recoverLabel_parse t] at hs
  exact hs.symm

theorem lexLt_nil_left {s : Label} (h : s ≠ []) : lexLt [] s = true := by
  cases s with
  | nil => exact absurd rfl h
  | cons x xs => rfl

theorem lexLt_irrefl (s : Label) : lexLt s s = false := by
  induction s with
  | nil => rfl
  | cons x xs ih => simp [lexLt, lt_irrefl, ih]

theorem lexLt_cons_iff {x y : Char} {xs ys : Label} :
    lexLt (x :: xs) (y :: ys) = true ↔
      x < y ∨ (x = y ∧ lexLt xs ys = true) := by
  show (if x < y then true else if y < x then false else lexLt xs ys) = true ↔ _
  by_cases hxy : x < y
  · simp [hxy]
  · by_cases hyx : y < x
    · simp only [if_neg hxy, if_pos hyx]
      constructor
      · intro h; cases h
      · rintro (h | ⟨rfl, _⟩)
        · exact absurd h hxy
        · exact absurd hyx (lt_irrefl x)
    · have heq : x = y := le_antisymm (not_lt.mp hyx) (not_lt.mp hxy)
      simp [hxy, hyx, heq]

theorem lexLt_asymm : ∀ {s t : Label}, lexLt s t = true → lexLt t s = false := by
  intro s
  induction s with
  | nil =>
    intro t h
    cases t with
    | nil => cases h
    | cons y ys => rfl
  | cons x xs ih =>
    intro t h
    cases t with
    | nil => cases h
    | cons y ys =>
      rcases lexLt_cons_iff.mp h with hxy | ⟨rfl, htail⟩
      · show (if y < x then true else if x < y then false else lexLt ys xs) = false
        rw [if_neg (asymm hxy), if_pos hxy]
      · show (if x < x then true else if x < x then false else lexLt ys xs) = false
        rw [if_neg (lt_irrefl x), if_neg (lt_irrefl x)]
        exact ih htail

theorem lexLt_trans :
    ∀ {s t u : Label}, lexLt s t = true → lexLt t u = true →
      lexLt s u = true := by
  intro s
  induction s with
  | nil =>
    intro t u h1 h2
    cases t with
    | nil => cases h1
    | cons y ys =>
      cases u with
      | nil => cases h2
      | cons z zs => rfl
  | cons x xs ih =>
    intro t u h1 h2
    cases t with
    | nil => cases h1
    | cons y ys =>
      cases u with
      | nil => cases h2
      | cons z zs =>
        rcases lexLt_cons_iff.mp h1 with hxy | ⟨rfl, ht1⟩ <;>
          rcases lexLt_cons_iff.mp h2 with hyz | ⟨he, ht2⟩
        · exact lexLt_cons_iff.mpr (Or.inl (lt_trans hxy hyz))
        · exact lexLt_cons_iff.mpr (Or.inl (he ▸ hxy))
        · exact lexLt_cons_iff.mpr (Or.inl hyz)
        · exact lexLt_cons_iff.mpr (Or.inr ⟨he, ih ht1 ht2⟩)

theorem lexLt_eq_of_both_false :
    ∀ {s t : Label}, lexLt s t = false → lexLt t s = false → s = t := by
  intro s
  induction s with
  | nil =>
    intro t h1 _
    cases t with
    | nil => rfl
    | cons y ys => cases h1
  | cons x xs ih =>
    intro t h1 h2
    cases t with
    | nil => cases h2
    | cons y ys =>
      by_cases hxy : x < y
      · rw [show lexLt (x :: xs) (y :: ys) = true from
          lexLt_cons_iff.mpr (Or.inl hxy)] at h1
        cases h1
      · by_cases hyx : y < x
        · rw [show lexLt (y :: ys) (x :: xs) = true from
            lexLt_cons_iff.mpr (Or.inl hyx)] at h2
          cases h2
        · have heq : x = y := le_antisymm (not_lt.mp hyx) (not_lt.mp hxy)
          subst heq
          have e1 : lexLt xs ys = false := by
            cases he : lexLt xs ys with
            | false => rfl
            | true =>
              rw [show lexLt (x :: xs) (x :: ys) = true from
                lexLt_cons_iff.mpr (Or.inr ⟨rfl, he⟩)] at h1
              cases h1
          have e2 : lexLt ys xs = false := by
            cases he : lexLt ys xs with
            | false => rfl
            | true =>
              rw [show lexLt (x :: ys) (x :: xs) = true from
                lexLt_cons_iff.mpr (Or.inr ⟨rfl, he⟩)] at h2
              cases h2
          rw [ih e1 e2]

theorem tupLt_irrefl (x : Label × Label × Label) : tupLt x x = false := by
  unfold tupLt
  simp [lexLt_irrefl]

theorem tupLt_asymm {x y : Label × Label × Label} (h : tupLt x y = true) :
    tupLt y x = false := by
  unfold tupLt at h ⊢
  by_cases e1 : x.1 = y.1
  · rw [if_pos e1] at h
    rw [if_pos e1.symm]
    by_cases e2 : x.2.1 = y.2.1
    · rw [if_pos e2] at h
      rw [if_pos e2.symm]
      exact lexLt_asymm h
    · rw [if_neg e2] at h
      rw [if_neg (fun he => e2 he.symm)]
      exact lexLt_asymm h
  · rw [if_neg e1] at h
    rw [if_neg (fun he => e1 he.symm)]
    exact lexLt_asymm h

theorem tupLt_eq_of_both_false {x y : Label × Label × Label}
    (h1 : tupLt x y = false) (h2 : tupLt y x = false) : x = y := by
  obtain ⟨a, b, c⟩ := x
  obtain ⟨d, e, f⟩ := y
  unfold tupLt at h1 h2
  dsimp only at h1 h2
  by_cases e1 : a = d
  · subst e1
    rw [if_pos rfl] at h1 h2
    by_cases e2 : b = e
    · subst e2
      rw [if_pos rfl] at h1 h2
      rw [lexLt_eq_of_both_false h1 h2]
    · rw [if_neg e2] at h1
      rw [if_neg (fun he => e2 he.symm)] at h2
      exact absurd (lexLt_eq_of_both_false h1 h2) e2
  · rw [if_neg e1] at h1
    rw [if_neg (fun he => e1 he.symm)] at h2
    exact absurd (lexLt_eq_of_both_false h1 h2) e1

theorem tupLt_trans {x y z : Label × Label × Label} (h1 : tupLt x y = true)
    (h2 : tupLt y z = true) : tupLt x z = true := by
  obtain ⟨a, b, c⟩ := x
  obtain ⟨d, e, f⟩ := y
  obtain ⟨g, i, j⟩ := z
  unfold tupLt at h1 h2 ⊢
  dsimp only at h1 h2 ⊢
  by_cases e1 : a = d <;> by_cases e2 : d = g
  · subst e1; subst e2
    rw [if_pos rfl] at h1 h2 ⊢
    by_cases e3 : b = e <;> by_cases e4 : e = i
    · subst e3; subst e4
      rw [if_pos rfl] at h1 h2 ⊢
      exact lexLt_trans h1 h2
    · subst e3
      rw [if_pos rfl] at h1
      rw [if_neg e4] at h2 ⊢
      exact h2
    · subst e4
      rw [if_neg e3] at h1 ⊢
      exact h1
    · rw [if_neg e3] at h1
      rw [if_neg e4] at h2
      have hbi : ¬ b = i := by
        rintro rfl
        rw [lexLt_asymm h1] at h2
        cases h2
      rw [if_neg hbi]
      exact lexLt_trans h1 h2
  · subst e1
    rw [if_neg e2] at h2
    rw [if_neg e2]
    exact h2
  · subst e2
    rw [if_neg e1] at h1
    rw [if_neg e1]
    exact h1
  · rw [if_neg e1] at h1
    rw [if_neg e2] at h2
    have hag : ¬ a = g := by
      rintro rfl
      rw [lexLt_asymm h1] at h2
      cases h2
    rw [if_neg hag]
    exact lexLt_trans h1 h2

theorem tupLt_total (x y : Label × Label × Label) :
    tupLt x y = true ∨ tupLt y x = true ∨ x = y := by
  cases hxy : tupLt x y with
  | true => exact Or.inl rfl
  | false =>
    cases hyx : tupLt y x with
    | true => exact Or.inr (Or.inl rfl)
    | false => exact Or.inr (Or.inr (tupLt_eq_of_both_false hxy hyx))

instance : IsTotal Label keyLe := ⟨fun a b => by
  unfold keyLe
  rcases tupLt_total (parse_label a) (parse_label b) with h | h | h
  · exact Or.inl (tupLt_asymm h)
  · exact Or.inr (tupLt_asymm h)
  · exact Or.inl (by rw [h]; exact tupLt_irrefl _)⟩

instance : IsTrans Label keyLe := ⟨fun a b c hab hbc => by
  unfold keyLe at hab hbc ⊢
  cases hc : tupLt (parse_label c) (parse_label a) with
  | false => rfl
  | true =>
    exfalso
    rcases tupLt_total (parse_label c) (parse_label b) with h | h | h
    · rw [hbc] at h
      cases h
    · have ht := tupLt_trans h hc
      rw [hab] at ht
      cases ht
    · rw [h] at hc
      rw [hab] at hc
      cases hc⟩

instance : IsAntisymm Label keyLe := ⟨fun a b hab hba => by
  unfold keyLe at hab hba
  exact parse_label_inj (tupLt_eq_of_both_false hba hab)⟩

theorem sortedKeyList_sorted (l : List Label) :
    List.Sorted keyLe (sortedKeyList l) :=
  List.sorted_insertionSort keyLe l

theorem sortedKeyList_perm (l : List Label) :
    List.Perm (sortedKeyList l) l :=
  List.perm_insertionSort keyLe l

theorem mem_sortedKeyList {q : Label} {l : List Label} :
    q ∈ sortedKeyList l ↔ q ∈ l :=
  (sortedKeyList_perm l).mem_iff

theorem sortedKeyList_eq_of_perm {l1 l2 : List Label}
    (hp : List.Perm l1 l2) : sortedKeyList l1 = sortedKeyList l2 :=
  List.eq_of_perm_of_sorted
    ((sortedKeyList_perm l1).trans (hp.trans (sortedKeyList_perm l2).symm))
    (sortedKeyList_sorted l1) (sortedKeyList_sorted l2)

theorem sorted_pos_lt {L : List Label} (hs : List.Sorted keyLe L)
    {p k : Label} (hlt : tupLt (parse_label p) (parse_label k) = true) :
    ∀ i j : Fin L.length, L.get i = p → L.get j = k → i < j := by
  intro i j hip hjk
  rcases lt_trichotomy i j with h | h | h
  · exact h
  · exfalso
    have hpk : p = k := by rw [← hip, h, hjk]
    rw [hpk, tupLt_irrefl] at hlt
    cases hlt
  · exfalso
    have hr := List.pairwise_iff_get.mp hs j i h
    rw [hip, hjk] at hr
    unfold keyLe at hr
    rw [hlt] at hr
    cases hr

theorem parse_label_fst (s : Label) : (parse_label s).1 = splitHead '_' s := by
  unfold parse_label
  by_cases h1 : '_' ∈ s <;> by_cases h2 : '.' ∈ s <;> simp [h1, h2]

theorem splitHead_of_underscore_mem {c : Label} (hm : '_' ∈ splitHead '.' c) :
    splitHead '_' (splitHead '.' c) = splitHead '_' c := by
  obtain ⟨t, ht⟩ := splitHead_prefix '.' c
  conv_rhs => rw [← ht]
  rw [splitHead_append t hm]

/-- A clade is delimiter-well-formed when, whenever it contains both an
underscore and a dot, its first underscore precedes its first dot
(equivalently, the prefix before the first dot contains an underscore). -/
def WFClade (c : Label) : Prop := '_' ∈ c → '.' ∈ c → '_' ∈ splitHead '.' c

/-- Every clade of the input is delimiter-well-formed. -/
def WFInput (l : List Label) : Prop := ∀ c ∈ l, WFClade c

instance : DecidablePred WFClade := fun c => by unfold WFClade; infer_instance

instance (l : List Label) : Decidable (WFInput l) := by
  unfold WFInput; infer_instance

/-- Shape invariant maintained by the construction loop on well-formed
inputs: a key without an underscore has no parent; a key with an underscore
but no dot has its own genotype as single parent; a key with both has the
prefix before its first dot as single parent, and that prefix contains an
underscore. -/
def ShapeInv (h : Hierarchy) : Prop :=
  ∀ k node, hlookup h k = some node →
    node.parents =
      (if '_' ∈ k then
        (if '.' ∈ k then [splitHead '.' k] else [splitHead '_' k])
      else []) ∧
    ('_' ∈ k → '.' ∈ k → '_' ∈ splitHead '.' k)

theorem hlookup_init (k : Label) :
    hlookup initHierarchy k =
      if lbl "unassigned" = k then some ⟨[], []⟩
      else if lbl "None" = k then some ⟨[], []⟩ else none := rfl

theorem shapeInv_init : ShapeInv initHierarchy := by
  intro k node hl
  rw [hlookup_init] at hl
  split at hl
  · rename_i hk
    subst hk
    injection hl with hl
    subst hl
    exact ⟨by decide, by decide⟩
  · split at hl
    · rename_i hk
      subst hk
      injection hl with hl
      subst hl
      exact ⟨by decide, by decide⟩
    · cases hl

theorem shapeInv_processClade {h : Hierarchy} {c : Label} (hw : WFClade c)
    (hi : ShapeInv h) : ShapeInv (processClade h c) := by
  intro k node hl
  rcases hlookup_processClade_cases hl with
    hold | ⟨rfl, rfl⟩ | ⟨h1, rfl, rfl⟩ | ⟨h1, h2, rfl, rfl⟩
  · exact hi _ _ hold
  · constructor
    · rw [if_neg (not_mem_splitHead '_' c)]
    · intro hu
      exact absurd hu (not_mem_splitHead '_' c)
  · have hm : '_' ∈ splitHead '.' c := by
      by_cases h2 : '.' ∈ c
      · exact hw h1 h2
      · rw [splitHead_eq_self h2]
        exact h1
    have hdm : '.' ∉ splitHead '.' c := not_mem_splitHead '.' c
    constructor
    · rw [if_pos hm, if_neg hdm, splitHead_of_underscore_mem hm]
    · intro _ hd
      exact absurd hd hdm
  · constructor
    · rw [if_pos h1, if_pos h2]
    · intro _ _
      exact hw h1 h2

theorem shapeInv_foldl (l : List Label) :
    ∀ h : Hierarchy, WFInput l → ShapeInv h →
      ShapeInv (l.foldl processClade h) := by
  induction l with
  | nil => exact fun _ _ hi => hi
  | cons c t ih =>
    intro h hw hi
    exact ih _ (fun d hd => hw d (List.mem_cons_of_mem c hd))
      (shapeInv_processClade (hw c (List.mem_cons_self c t)) hi)

theorem shapeInv_build {l : List Label} (hw : WFInput l) :
    ShapeInv (load_lineage_files l) := by
  rw [load_lineage_files_eq_foldl]
  exact shapeInv_foldl l initHierarchy hw shapeInv_init

/-- Parent closure: every parent named by some node is itself a key. -/
def ClosedInv (h : Hierarchy) : Prop :=
  ∀ k node, hlookup h k = some node → ∀ p ∈ node.parents, p ∈ hkeys h

theorem closedInv_init : ClosedInv initHierarchy := by
  intro k node hl p hp
  rw [hlookup_init] at hl
  split at hl
  · injection hl with hl
    subst hl
    cases hp
  · split at hl
    · injection hl with hl
      subst hl
      cases hp
    · cases hl

theorem closedInv_processClade {h : Hierarchy} (c : Label)
    (hi : ClosedInv h) : ClosedInv (processClade h c) := by
  intro k node hl p hp
  rcases hlookup_processClade_cases hl with
    hold | ⟨rfl, rfl⟩ | ⟨h1, rfl, rfl⟩ | ⟨h1, h2, rfl, rfl⟩
  · exact processClade_keys_mono c (hi _ _ hold p hp)
  · cases hp
  · rw [List.mem_singleton] at hp
    subst hp
    exact mem_hkeys_processClade_iff.mpr (Or.inr (by simp [cladeNames]))
  · rw [List.mem_singleton] at hp
    subst hp
    exact mem_hkeys_processClade_iff.mpr
      (Or.inr (by simp [cladeNames, h1, h2]))

theorem closedInv_foldl (l : List Label) :
    ∀ h : Hierarchy, ClosedInv h → ClosedInv (l.foldl processClade h) := by
  induction l with
  | nil => exact fun _ hi => hi
  | cons c t ih => exact fun h hi => ih _ (closedInv_processClade c hi)

theorem closedInv_build (l : List Label) :
    ClosedInv (load_lineage_files l) := by
  rw [load_lineage_files_eq_foldl]
  exact closedInv_foldl l initHierarchy closedInv_init

theorem sentinel_lookup (l : List Label) :
    hlookup (load_lineage_files l) (lbl "unassigned") = some ⟨[], []⟩ ∧
      hlookup (load_lineage_files l) (lbl "None") = some ⟨[], []⟩ := by
  rw [load_lineage_files_eq_foldl]
  exact ⟨foldl_lookup_preserve l initHierarchy (by decide),
    foldl_lookup_preserve l initHierarchy (by decide)⟩

theorem genotype_mem_foldl {s : Label} (l : List Label) :
    ∀ h : Hierarchy, s ∈ l →
      splitHead '_' s ∈ hkeys (l.foldl processClade h) := by
  induction l with
  | nil => intro h hs; cases hs
  | cons c t ih =>
    intro h hs
    rcases List.mem_cons.mp hs with rfl | hs'
    · exact foldl_keys_mono t _
        (mem_hkeys_processClade_iff.mpr (Or.inr (by simp [cladeNames])))
    · exact ih _ hs'

theorem tupLt_explicit (a b c d e f : Label) :
    tupLt (a, b, c) (d, e, f) =
      if a = d then (if b = e then lexLt c f else lexLt b e)
      else lexLt a d := rfl

/-- C4 counterexample: on the input string "._a" the code returns
major = "" (the string starts with a dot) yet minor = the full string
"._a", contradicting the claim that the minor component is empty whenever
the major component is empty. -/
theorem C4_counterexample :
    (parse_label (lbl "._a")).2.1 = [] ∧
      (parse_label (lbl "._a")).2.2 ≠ [] ∧
      (parse_label (lbl "._a")).2.2 = lbl "._a" := by decide

/-- C4 (amended): for every non-empty string s, parse_label s = (g, m, n)
where g is the prefix of s before the first underscore (all of s when no
underscore occurs); m is empty when s has no underscore and otherwise is the
prefix of s before the first dot (all of s when no dot occurs); n is empty
when s has no underscore or no dot (rather than "when m is empty or s has
no dot"), and otherwise n is the full original string s unchanged.  In
particular n nonempty implies n = s, m nonempty implies m is a prefix of s,
and g is always a prefix of s. -/
theorem C4_parse_label_spec (s : Label) (_hs : s ≠ []) :
    (parse_label s).1 = splitHead '_' s ∧
    ('_' ∉ s → (parse_label s).1 = s) ∧
    (parse_label s).2.1 = (if '_' ∈ s then splitHead '.' s else []) ∧
    (parse_label s).2.2 = (if '_' ∈ s ∧ '.' ∈ s then s else []) ∧
    ((parse_label s).2.2 ≠ [] → (parse_label s).2.2 = s) ∧
    ((parse_label s).2.1 ≠ [] → ∃ t, (parse_label s).2.1 ++ t = s) ∧
    (∃ t, (parse_label s).1 ++ t = s) := by
  by_cases h1 : '_' ∈ s
  · by_cases h2 : '.' ∈ s
    · rw [parse_label_underscore_dot h1 h2]
      refine ⟨rfl, fun hn => absurd h1 hn, ?_, ?_, ?_, ?_, ?_⟩
      · rw [if_pos h1]
      · rw [if_pos ⟨h1, h2⟩]
      · intro _; rfl
      · intro _; exact splitHead_prefix '.' s
      · exact splitHead_prefix '_' s
    · rw [parse_label_underscore_no_dot h1 h2]
      refine ⟨rfl, fun hn => absurd h1 hn, ?_, ?_, ?_, ?_, ?_⟩
      · rw [if_pos h1, splitHead_eq_self h2]
      · rw [if_neg (fun hc => h2 hc.2)]
      · intro h; exact absurd rfl h
      · intro _; exact ⟨[], List.append_nil s⟩
      · exact splitHead_prefix '_' s
  · rw [parse_label_no_underscore h1]
    refine ⟨(splitHead_eq_self h1).symm, fun _ => rfl, ?_, ?_, ?_, ?_, ?_⟩
    · rw [if_neg h1]
    · rw [if_neg (fun hc => h1 hc.1)]
    · intro h; exact absurd rfl h
    · intro h; exact absurd rfl h
    · exact ⟨[], List.append_nil s⟩

theorem C4_witness :
    lbl "X_1.2.3" ≠ [] ∧ (parse_label (lbl "X_1.2.3")).2.2 = lbl "X_1.2.3" :=
  ⟨by decide,
    (C4_parse_label_spec (lbl "X_1.2.3") (by decide)).2.2.2.2.1 (by decide)⟩

/-- C5: parent closure — in the hierarchy built from any input, every parent
referenced by any node's parents list is itself a key of the hierarchy. -/
theorem C5_parent_closure (l : List Label) (k : Label) (node : Node)
    (hl : hlookup (load_lineage_files l) k = some node) :
    ∀ p ∈ node.parents, p ∈ hkeys (load_lineage_files l) :=
  closedInv_build l k node hl

theorem C5_witness :
    hlookup (load_lineage_files [lbl "A_1"]) (lbl "A_1") =
        some ⟨[], [lbl "A"]⟩ ∧
      lbl "A" ∈ hkeys (load_lineage_files [lbl "A_1"]) :=
  ⟨by decide,
    C5_parent_closure [lbl "A_1"] (lbl "A_1") (Node.mk [] [lbl "A"])
      (by decide) (lbl "A") (by decide)⟩

/-- C6: sentinel invariant — for every input sequence (including the empty
one and inputs whose parsed names coincide with the sentinel names), the
built hierarchy contains "unassigned" and "None", each with empty aliases
and empty parents. -/
theorem C6_sentinel_invariant (l : List Label) :
    hlookup (load_lineage_files l) (lbl "unassigned") = some ⟨[], []⟩ ∧
      hlookup (load_lineage_files l) (lbl "None") = some ⟨[], []⟩ :=
  sentinel_lookup l

/-- C7: for the input sequence ["A_1", "A_1.2"], the builder returns exactly
5 nodes — the two sentinels, genotype "A" with no parents, major "A_1" with
parent "A", and minor "A_1.2" with parent "A_1" — all with empty aliases. -/
theorem C7_concrete_build :
    (load_lineage_files [lbl "A_1", lbl "A_1.2"]).length = 5 ∧
    hlookup (load_lineage_files [lbl "A_1", lbl "A_1.2"]) (lbl "unassigned") =
      some ⟨[], []⟩ ∧
    hlookup (load_lineage_files [lbl "A_1", lbl "A_1.2"]) (lbl "None") =
      some ⟨[], []⟩ ∧
    hlookup (load_lineage_files [lbl "A_1", lbl "A_1.2"]) (lbl "A") =
      some ⟨[], []⟩ ∧
    hlookup (load_lineage_files [lbl "A_1", lbl "A_1.2"]) (lbl "A_1") =
      some ⟨[], [lbl "A"]⟩ ∧
    hlookup (load_lineage_files [lbl "A_1", lbl "A_1.2"]) (lbl "A_1.2") =
      some ⟨[], [lbl "A_1"]⟩ := by decide

/-- C8: first write wins — inserting an already-present name leaves the
dict unchanged; once a name is bound, processing further input never
changes its binding (later parent information is discarded); and each
distinct name yields exactly one node (the key list has no duplicates). -/
theorem C8_first_write_wins :
    (∀ (h : Hierarchy) (k : Label) (v : Node), k ∈ hkeys h →
      insertIfAbsent h k v = h) ∧
    (∀ (l l' : List Label) (k : Label) (v : Node),
      hlookup (load_lineage_files l) k = some v →
      hlookup (load_lineage_files (l ++ l')) k = some v) ∧
    (∀ l : List Label, (hkeys (load_lineage_files l)).Nodup) := by
  refine ⟨fun h k v hk => insertIfAbsent_noop v hk, ?_, ?_⟩
  · intro l l' k v hl
    rw [load_lineage_files_eq_foldl] at hl ⊢
    rw [List.foldl_append]
    exact foldl_lookup_preserve l' _ hl
  · intro l
    rw [load_lineage_files_eq_foldl]
    exact nodup_hkeys_foldl l initHierarchy (by decide)

theorem C8_witness :
    hlookup (load_lineage_files [lbl "A_X"]) (lbl "A") = some ⟨[], []⟩ ∧
      hlookup (load_lineage_files ([lbl "A_X"] ++ [lbl "A.B_C"])) (lbl "A") =
        some ⟨[], []⟩ :=
  ⟨by decide,
    C8_first_write_wins.2.1 [lbl "A_X"] [lbl "A.B_C"] (lbl "A")
      (Node.mk [] []) (by decide)⟩

/-- C9: the builder is total and never drops a row — for every input string
s of the input sequence, the genotype component of parse_label s is a key
of the resulting hierarchy (malformed labels, including the empty string,
still yield a genotype-level node). -/
theorem C9_genotype_present (l : List Label) (s : Label) (hs : s ∈ l) :
    (parse_label s).1 ∈ hkeys (load_lineage_files l) := by
  rw [parse_label_fst, load_lineage_files_eq_foldl]
  exact genotype_mem_foldl l initHierarchy hs

theorem C9_witness :
    lbl "" ∈ [lbl ""] ∧
      (parse_label (lbl "")).1 ∈ hkeys (load_lineage_files [lbl ""]) :=
  ⟨by decide, C9_genotype_present [lbl ""] (lbl "") (by decide)⟩

/-- C10: the writer's node order is deterministic — parse_label is
injective (distinct names yield distinct key tuples, so the sort key is a
strict total order with no ties), and sorting any two duplicate-free key
lists with the same membership yields the same sequence. -/
theorem C10_deterministic_order :
    (∀ s t : Label, parse_label s = parse_label t → s = t) ∧
    (∀ a b : Label, a ≠ b →
      tupLt (parse_label a) (parse_label b) = true ∨
        tupLt (parse_label b) (parse_label a) = true) ∧
    (∀ l1 l2 : List Label, l1.Nodup → l2.Nodup →
      (∀ k, k ∈ l1 ↔ k ∈ l2) → sortedKeyList l1 = sortedKeyList l2) := by
  refine ⟨fun s t => parse_label_inj, ?_, ?_⟩
  · intro a b hab
    rcases tupLt_total (parse_label a) (parse_label b) with h | h | h
    · exact Or.inl h
    · exact Or.inr h
    · exact absurd (parse_label_inj h) hab
  · intro l1 l2 h1 h2 hm
    exact sortedKeyList_eq_of_perm ((List.perm_ext_iff_of_nodup h1 h2).mpr hm)

theorem C10_witness :
    ([lbl "B", lbl "A"] : List Label).Nodup ∧
      sortedKeyList [lbl "B", lbl "A"] = sortedKeyList [lbl "A", lbl "B"] :=
  ⟨by decide,
    C10_deterministic_order.2.2 [lbl "B", lbl "A"] [lbl "A", lbl "B"]
      (by decide) (by decide) (by intro k; simp [List.mem_cons]; tauto)⟩

/-- C3 counterexample: the inputs ["A_X", "A.B_C"] and ["A.B_C", "A_X"]
contain the same set of distinct clade strings, yet the node "A" is built
with no parent from the first order (inserted at genotype level first) and
with parent "A.B" from the second (inserted at major level first): the
builder is not order-independent on parent links. -/
theorem C3_counterexample :
    List.Perm [lbl "A_X", lbl "A.B_C"] [lbl "A.B_C", lbl "A_X"] ∧
      hlookup (load_lineage_files [lbl "A_X", lbl "A.B_C"]) (lbl "A") =
        some ⟨[], []⟩ ∧
      hlookup (load_lineage_files [lbl "A.B_C", lbl "A_X"]) (lbl "A") =
        some ⟨[], [lbl "A.B"]⟩ :=
  ⟨List.Perm.swap (lbl "A.B_C") (lbl "A_X") [], by decide, by decide⟩

/-- C3 (amended): the builder's key set is order-independent — for any two
input sequences containing the same set of distinct clade strings (in any
order, with any duplication), the built hierarchies have the same set of
node names; parent links, however, can differ (see the counterexample). -/
theorem C3_keyset_order_independent (l1 l2 : List Label)
    (hm : ∀ c, c ∈ l1 ↔ c ∈ l2) :
    ∀ k, k ∈ hkeys (load_lineage_files l1) ↔
      k ∈ hkeys (load_lineage_files l2) := by
  intro k
  rw [load_lineage_files_eq_foldl, load_lineage_files_eq_foldl,
    mem_hkeys_foldl_iff l1 initHierarchy, mem_hkeys_foldl_iff l2 initHierarchy]
  constructor
  · rintro (h | ⟨c, hc, hn⟩)
    · exact Or.inl h
    · exact Or.inr ⟨c, (hm c).mp hc, hn⟩
  · rintro (h | ⟨c, hc, hn⟩)
    · exact Or.inl h
    · exact Or.inr ⟨c, (hm c).mpr hc, hn⟩

theorem C3_witness :
    (∀ c : Label, c ∈ [lbl "A_1"] ↔ c ∈ [lbl "A_1", lbl "A_1"]) ∧
      (lbl "A" ∈ hkeys (load_lineage_files [lbl "A_1"]) ↔
        lbl "A" ∈ hkeys (load_lineage_files [lbl "A_1", lbl "A_1"])) :=
  ⟨by intro c; simp,
    C3_keyset_order_independent [lbl "A_1"] [lbl "A_1", lbl "A_1"]
      (by intro c; simp) (lbl "A")⟩

/-- C2 counterexample: on input ["A.B_C", "A_X.Y"] the hierarchy contains
the parent chain "A_X.Y" → "A_X" → "A" → "A.B" of three edges, so the
hierarchy is not a forest of depth at most 2; moreover the major-level node
"A" has parent "A.B", which is not the genotype "A" of its own name. -/
theorem C2_counterexample :
    hlookup (load_lineage_files [lbl "A.B_C", lbl "A_X.Y"]) (lbl "A_X.Y") =
        some ⟨[], [lbl "A_X"]⟩ ∧
      hlookup (load_lineage_files [lbl "A.B_C", lbl "A_X.Y"]) (lbl "A_X") =
        some ⟨[], [lbl "A"]⟩ ∧
      hlookup (load_lineage_files [lbl "A.B_C", lbl "A_X.Y"]) (lbl "A") =
        some ⟨[], [lbl "A.B"]⟩ ∧
      hlookup (load_lineage_files [lbl "A.B_C", lbl "A_X.Y"]) (lbl "A.B") =
        some ⟨[], []⟩ := by decide

/-- C2 (amended): when every input clade that contains both an underscore
and a dot has its first underscore before its first dot, the claimed shape
holds — a node whose name has no underscore has an empty parents list, a
node with an underscore but no dot has exactly its genotype as parent, a
node with both has exactly its major lineage as parent, and every parent
chain has length at most 2 edges. -/
theorem C2_levels_and_depth (l : List Label) (hw : WFInput l) :
    (∀ k node, hlookup (load_lineage_files l) k = some node →
      ('_' ∉ k → node.parents = []) ∧
      ('_' ∈ k → '.' ∉ k → node.parents = [(parse_label k).1]) ∧
      ('_' ∈ k → '.' ∈ k → node.parents = [(parse_label k).2.1])) ∧
    (∀ x nx, hlookup (load_lineage_files l) x = some nx →
      ∀ p ∈ nx.parents, ∀ np, hlookup (load_lineage_files l) p = some np →
        ∀ q ∈ np.parents, ∀ nq, hlookup (load_lineage_files l) q = some nq →
          nq.parents = []) := by
  have hs := shapeInv_build hw
  constructor
  · intro k node hl
    obtain ⟨hpk, hwk⟩ := hs k node hl
    refine ⟨?_, ?_, ?_⟩
    · intro h1
      rw [hpk, if_neg h1]
    · intro h1 h2
      rw [hpk, if_pos h1, if_neg h2, parse_label_fst]
    · intro h1 h2
      rw [hpk, if_pos h1, if_pos h2, parse_label_underscore_dot h1 h2]
  · intro x nx hx p hp np hnp q hq nq hnq
    obtain ⟨hpx, hwx⟩ := hs x nx hx
    obtain ⟨hpp, _⟩ := hs p np hnp
    obtain ⟨hpq, _⟩ := hs q nq hnq
    rw [hpx] at hp
    by_cases hx1 : '_' ∈ x
    · rw [if_pos hx1] at hp
      by_cases hx2 : '.' ∈ x
      · rw [if_pos hx2, List.mem_singleton] at hp
        subst hp
        have hp1 : '_' ∈ splitHead '.' x := hwx hx1 hx2
        have hp2 : '.' ∉ splitHead '.' x := not_mem_splitHead '.' x
        rw [hpp, if_pos hp1, if_neg hp2, List.mem_singleton] at hq
        subst hq
        rw [hpq, if_neg (not_mem_splitHead '_' (splitHead '.' x))]
      · rw [if_neg hx2, List.mem_singleton] at hp
        subst hp
        rw [hpp, if_neg (not_mem_splitHead '_' x)] at hq
        cases hq
    · rw [if_neg hx1] at hp
      cases hp

theorem C2_witness :
    WFInput [lbl "A_1.2"] ∧
      (Node.mk [] [lbl "A_1"]).parents = [(parse_label (lbl "A_1.2")).2.1] :=
  ⟨by decide,
    ((C2_levels_and_depth [lbl "A_1.2"] (by decide)).1 (lbl "A_1.2")
      (Node.mk [] [lbl "A_1"]) (by decide)).2.2 (by decide) (by decide)⟩

/-- C1 counterexample: for input ["A.B_C"] the node "A" has parent "A.B"
(so "A.B" is the genotype node its parents list references), yet sorting
the node names by parse_label places the child "A" before its parent
"A.B": the parent-before-child guarantee fails for this input. -/
theorem C1_counterexample :
    sortedNames (load_lineage_files [lbl "A.B_C"]) =
        [lbl "A", lbl "A.B", lbl "A.B_C", lbl "None", lbl "unassigned"] ∧
      hlookup (load_lineage_files [lbl "A.B_C"]) (lbl "A") =
        some ⟨[], [lbl "A.B"]⟩ := by decide

/-- C1 (amended): when every input clade that contains both an underscore
and a dot has its first underscore before its first dot, sorting the node
names by the parse_label key places every parent strictly before its
child — for every node with a parent, the parent's key tuple is strictly
smaller, both names occur in the sorted output, and every position of the
parent precedes every position of the child. -/
theorem C1_parent_before_child (l : List Label) (hw : WFInput l)
    (k : Label) (node : Node)
    (hl : hlookup (load_lineage_files l) k = some node) :
    ∀ p ∈ node.parents,
      tupLt (parse_label p) (parse_label k) = true ∧
      p ∈ sortedNames (load_lineage_files l) ∧
      k ∈ sortedNames (load_lineage_files l) ∧
      ∀ i j : Fin (sortedNames (load_lineage_files l)).length,
        (sortedNames (load_lineage_files l)).get i = p →
        (sortedNames (load_lineage_files l)).get j = k → i < j := by
  intro p hp
  have hs := shapeInv_build hw
  obtain ⟨hpk, hwk⟩ := hs k node hl
  have hne : k ≠ [] := by
    rintro rfl
    rw [hpk] at hp
    cases hp
  have hlt : tupLt (parse_label p) (parse_label k) = true := by
    rw [hpk] at hp
    by_cases h1 : '_' ∈ k
    · rw [if_pos h1] at hp
      by_cases h2 : '.' ∈ k
      · rw [if_pos h2, List.mem_singleton] at hp
        subst hp
        have hm : '_' ∈ splitHead '.' k := hwk h1 h2
        have hd : '.' ∉ splitHead '.' k := not_mem_splitHead '.' k
        rw [parse_label_underscore_dot h1 h2,
          parse_label_underscore_no_dot hm hd,
          splitHead_of_underscore_mem hm, tupLt_explicit,
          if_pos rfl, if_pos rfl]
        exact lexLt_nil_left hne
      · rw [if_neg h2, List.mem_singleton] at hp
        subst hp
        rw [parse_label_underscore_no_dot h1 h2,
          parse_label_no_underscore (not_mem_splitHead '_' k),
          tupLt_explicit, if_pos rfl,
          if_neg (fun he => hne he.symm)]
        exact lexLt_nil_left hne
    · rw [if_neg h1] at hp
      cases hp
  have hpm : p ∈ sortedNames (load_lineage_files l) := by
    unfold sortedNames
    rw [mem_sortedKeyList]
    exact closedInv_build l k node hl p hp
  have hkm : k ∈ sortedNames (load_lineage_files l) := by
    unfold sortedNames
    rw [mem_sortedKeyList]
    exact hlookup_mem_keys hl
  exact ⟨hlt, hpm, hkm,
    sorted_pos_lt (sortedKeyList_sorted (hkeys (load_lineage_files l))) hlt⟩

theorem C1_witness :
    WFInput [lbl "A_1.2"] ∧
      tupLt (parse_label (lbl "A_1")) (parse_label (lbl "A_1.2")) = true :=
  ⟨by decide,
    (C1_parent_before_child [lbl "A_1.2"] (by decide) (lbl "A_1.2")
      (Node.mk [] [lbl "A_1"]) (by decide) (lbl "A_1") (by decide)).1⟩
